import Mathlib

/-!
# grabfiles: link extraction and download coordination

A shallow embedding of `grabfiles.go`.

* Go strings are Lean strings; `strings.HasSuffix` compares the trailing
  characters (on UTF-8 text the bytewise and the characterwise test agree).
* A Go slice whose nil-ness the program observes is a `Slice`; a slice that
  is only ranged over is a `List`.
* The network, the file system and the markup tokenizer are parameters: a GET
  of a page yields either an error or the tokens the tokenizer produces for
  its body, and every step of a download either succeeds or fails.
* Goroutines and unbuffered channels are a transition system: a receive of
  the coordinator is a rendezvous with one task blocked on the matching send.
-/

namespace Grabfiles

/-! ## Go values -/

/-- A Go slice as the program observes it: the nil slice, or a non-nil slice
with its elements. -/
inductive Slice (α : Type) where
  | nil : Slice α
  | mk (elems : List α) : Slice α
  deriving DecidableEq, Repr

/-- The elements of a slice; the nil slice has none. -/
def Slice.toList {α : Type} : Slice α → List α
  | .nil => []
  | .mk elems => elems

/-- Go `len(s)`. -/
def Slice.len {α : Type} (s : Slice α) : Nat := s.toList.length

/-- Go `s == nil`. -/
def Slice.isNil {α : Type} : Slice α → Bool
  | .nil => true
  | .mk _ => false

/-- Go `append(s, x)`: the result is never nil. -/
def Slice.append {α : Type} (s : Slice α) (x : α) : Slice α :=
  .mk (s.toList ++ [x])

/-- Go `strings.HasSuffix`:
`len(s) >= len(suffix) && s[len(s)-len(suffix):] == suffix`. -/
def HasSuffix (s suffix : String) : Bool :=
  decide (s.length ≥ suffix.length) &&
    (s.data.drop (s.length - suffix.length) == suffix.data)

/-! ## Markup tokens (`golang.org/x/net/html`) -/

/-- The kinds of token of `html.TokenType`. -/
inductive TokenType where
  | ErrorToken
  | TextToken
  | StartTagToken
  | EndTagToken
  | SelfClosingTagToken
  | CommentToken
  | DoctypeToken
  deriving DecidableEq, Repr

/-- An attribute, `html.Attribute`. -/
structure Attribute where
  Namespace : String
  Key : String
  Val : String
  deriving DecidableEq, Repr

/-- A token, `html.Token`: its type (`Typ` for Go's field `Type`), its data
and its attributes. -/
structure Token where
  Typ : TokenType
  Data : String
  Attr : List Attribute
  deriving DecidableEq, Repr

/-! ## Link extraction -/

/-- Source `getHref`: the named results start as `(false, "")` and every
attribute whose key is `href` overwrites them. -/
def getHref (t : Token) : Bool × String :=
  t.Attr.foldl
    (fun (r : Bool × String) a => if a.Key = "href" then (true, a.Val) else r)
    (false, "")

/-- The inner loop of `crawl` (source lines 74-78): one `append` for every
entry of the filter the url ends with. -/
def appendMatches (url : String) (extenstions : List String)
    (files : Slice String) : Slice String :=
  extenstions.foldl
    (fun fs extenstion => if HasSuffix url extenstion then fs.append url else fs)
    files

/-- The token loop of `crawl` (source lines 51-80) over the tokens the
tokenizer still has to deliver; once they are used up `Next` reports
`ErrorToken` (end of input). -/
def crawlLoop (extenstions : List String) :
    List Token → Slice String → Slice String
  | [], files => files
  | token :: rest, files =>
    match token.Typ with
    | .ErrorToken => files
    | .StartTagToken =>
      let isAnchor := token.Data == "a"
      if !isAnchor then crawlLoop extenstions rest files
      else
        match getHref token with
        | (false, _) => crawlLoop extenstions rest files
        | (true, url) =>
          crawlLoop extenstions rest (appendMatches url extenstions files)
    | _ => crawlLoop extenstions rest files

/-- Source `crawl`. `Get url` is `http.Get(url)` followed by the tokenizer:
`none` when the GET returns an error, otherwise the token stream of the
body. `files` starts as the nil slice (`var files []string`). -/
def crawl (Get : String → Option (List Token)) (url : String)
    (extenstions : List String) : Slice String :=
  match Get url with
  | none => Slice.nil
  | some body => crawlLoop extenstions body Slice.nil

/-! ## Link extraction as the specification words it -/

/-- The tokens read up to the first error or end-of-document token. -/
def documentTokens (ts : List Token) : List Token :=
  ts.takeWhile (fun t => t.Typ != TokenType.ErrorToken)

/-- The value of the last attribute with key `href`, when there is one. -/
def lastHref (t : Token) : Option String :=
  ((t.Attr.filter (fun a => a.Key == "href")).getLast?).map (fun a => a.Val)

/-- What one token contributes: for a start tag named `a` that carries an
href, one copy of the href per filter entry it ends with; nothing otherwise. -/
def linksOfToken (E : List String) (t : Token) : List String :=
  if t.Typ = TokenType.StartTagToken ∧ t.Data = "a" then
    match lastHref t with
    | some h => (E.filter (fun e => HasSuffix h e)).map (fun _ => h)
    | none => []
  else []

/-- The extracted sequence: the contributions in document order. -/
def extractedLinks (E : List String) (ts : List Token) : List String :=
  (documentTokens ts).flatMap (linksOfToken E)

/-- An anchor start tag with the single attribute `href`. -/
def anchor (href : String) : Token :=
  { Typ := TokenType.StartTagToken, Data := "a",
    Attr := [{ Namespace := "", Key := "href", Val := href }] }

/-- The page of the specification's scenario: anchors to `a.c`, `b.pdf`
and `c.txt`. -/
def scenarioPage : List Token :=
  [anchor "a.c", anchor "b.pdf", anchor "c.txt"]

/-- The number of anchor start tags of the document, read up to its first
error token, whose href is `link`. -/
def anchorCount (link : String) (ts : List Token) : Nat :=
  ((documentTokens ts).filter (fun t =>
    decide (t.Typ = TokenType.StartTagToken ∧ t.Data = "a") &&
      (lastHref t == some link))).length

/-! ## Download tasks -/

/-- Whether each step of one download would succeed if it were attempted:
the GET of `urlpath + file`, the creation of the local file, the copy of the
body into it. -/
structure Steps where
  get : Bool
  create : Bool
  copy : Bool
  deriving DecidableEq, Repr

/-- What a download task does, as the rest of the system can observe it. -/
inductive Event where
  | httpGet (url : String)
  | osCreate (name : String)
  | ioCopy
  | println (operands : List String)
  | sendCh (b : Bool)
  | sendChFinished (b : Bool)
  | closeBody
  | closeOut
  deriving DecidableEq, Repr

/-- Source `downloadFile`: the events of one call in program order. A
`defer` puts its call in front of the calls that run after the `return`, so
these run last deferred first: `out.Close`, `resp.Body.Close`, and at the
very end `chFinished <- true`. -/
def downloadFile (urlpath file : String) (w : Steps) : List Event :=
  let deferred₀ := [Event.sendChFinished true]
  let get := [Event.httpGet (urlpath ++ file)]
  if !w.get then
    get ++ [Event.println [" - ERROR\t", urlpath, file], Event.sendCh false]
      ++ deferred₀
  else
    let deferred₁ := Event.closeBody :: deferred₀
    let create := get ++ [Event.osCreate file]
    if !w.create then
      create ++ [Event.println [" - ERROR\t", file], Event.sendCh false]
        ++ deferred₁
    else
      let deferred₂ := Event.closeOut :: deferred₁
      let copy := create ++ [Event.ioCopy]
      if !w.copy then
        copy ++ [Event.println [" - ERROR\t", file], Event.sendCh false]
          ++ deferred₂
      else
        copy ++ [Event.println [" - SUCCESS\t", file], Event.sendCh true]
          ++ deferred₂

/-- A value on one of the two channels: `outcome b` travels on `ch`
(`chDownloaded` in `main`), `finished b` on `chFinished`. -/
inductive Signal where
  | outcome (b : Bool)
  | finished (b : Bool)
  deriving DecidableEq, Repr

/-- The channel sends among the events of a task, in order. -/
def sends (es : List Event) : List Signal :=
  es.filterMap (fun e =>
    match e with
    | Event.sendCh b => some (Signal.outcome b)
    | Event.sendChFinished b => some (Signal.finished b)
    | _ => none)

/-- Whether a signal travels on the outcome channel. -/
def Signal.isOutcome : Signal → Bool
  | .outcome _ => true
  | .finished _ => false

/-- Whether a signal travels on the finished channel. -/
def Signal.isFinished : Signal → Bool
  | .outcome _ => false
  | .finished _ => true

/-! ## The coordinator loop -/

/-- The state of the coordinator loop of `main` (source lines 160-168) and of
the tasks it started. `c` and `total_downloaded` are the loop's variables
(Go `int`; both stay below the number of tasks, so they never wrap).
`tasks` holds, for every goroutine, the channel sends it has not completed
yet: both channels are unbuffered, so a task stays blocked on the first of
them until the coordinator receives it. `received` is the history of the
values the coordinator has received, oldest first. -/
structure Coordinator where
  c : Nat
  total_downloaded : Nat
  tasks : List (List Signal)
  received : List Signal
  deriving DecidableEq, Repr

/-- One iteration of the loop `for c := 0; c < len(files); { select ... }`
with `n = len(files)`, in which the `select` receives from task `i`:
a value on `chFinished` increments `c`, a value on `chDownloaded` increments
`total_downloaded` whatever the value is. There is no such iteration when
the loop condition fails or task `i` has nothing to send. -/
def Coordinator.recv (n : Nat) (s : Coordinator) (i : Nat) : Option Coordinator :=
  if s.c < n then
    match s.tasks[i]? with
    | some (Signal.finished b :: rest) =>
      some { c := s.c + 1,
             total_downloaded := s.total_downloaded,
             tasks := s.tasks.set i rest,
             received := s.received ++ [Signal.finished b] }
    | some (Signal.outcome b :: rest) =>
      some { c := s.c,
             total_downloaded := s.total_downloaded + 1,
             tasks := s.tasks.set i rest,
             received := s.received ++ [Signal.outcome b] }
    | _ => none
  else none

/-- The loop run along an interleaving: `schedule` lists, iteration by
iteration, the task the `select` receives from. -/
def Coordinator.run (n : Nat) (s : Coordinator) : List Nat → Option Coordinator
  | [] => some s
  | i :: schedule =>
    match s.recv n i with
    | some s' => Coordinator.run n s' schedule
    | none => none

/-- The tasks `main` starts (source lines 156-158), one per entry of
`files`; `env i` tells how the steps of the i-th task turn out. -/
def dispatch (urlpath : String) (files : List String) (env : Nat → Steps) :
    Coordinator :=
  { c := 0,
    total_downloaded := 0,
    tasks := files.enum.map (fun p => sends (downloadFile urlpath p.2 (env p.1))),
    received := [] }

/-- The states the coordinator and its tasks can be in after some number of
loop iterations. -/
def Reachable (urlpath : String) (files : List String) (env : Nat → Steps)
    (s : Coordinator) : Prop :=
  ∃ schedule : List Nat,
    (dispatch urlpath files env).run files.length schedule = some s

/-- The loop condition `c < len(files)` fails: the loop has exited. -/
def Coordinator.exited (n : Nat) (s : Coordinator) : Prop := ¬ s.c < n

instance (n : Nat) (s : Coordinator) : Decidable (s.exited n) :=
  inferInstanceAs (Decidable (¬ s.c < n))

/-- The number of tasks whose download succeeds, that is, that send `true`
on the outcome channel. -/
def successes (files : List String) (env : Nat → Steps) : Nat :=
  ((List.range files.length).filter
    (fun i => (env i).get && (env i).create && (env i).copy)).length

/-- How many sends matching `q` the tasks have not completed yet. -/
def pending (q : Signal → Bool) (tasks : List (List Signal)) : Nat :=
  (tasks.map (fun p => p.countP q)).sum

/-- The sends a task can still have before it: none, the finished signal
alone, or its outcome followed by the finished signal. -/
def Remaining (p : List Signal) : Prop :=
  p = [] ∨ p = [Signal.finished true] ∨
    ∃ b, p = [Signal.outcome b, Signal.finished true]

/-- The invariant of the coordinator loop over `n` tasks: a signal is either
received and counted or still pending, and every task keeps its outcome
before its finished signal. -/
structure Inv (n : Nat) (s : Coordinator) : Prop where
  size : s.tasks.length = n
  finished : s.c + pending Signal.isFinished s.tasks = n
  outcomes : s.total_downloaded + pending Signal.isOutcome s.tasks = n
  shape : ∀ p ∈ s.tasks, Remaining p
  recvFinished : s.received.countP Signal.isFinished = s.c
  recvOutcome : s.received.countP Signal.isOutcome = s.total_downloaded

/-! ## The program -/

/-- How a run of `main` ends: the exit code, and the number printed in the
line `<n> file(s) successfully downloaded.` when that line is printed. -/
structure Exit where
  code : Nat
  summary : Option Nat
  deriving DecidableEq, Repr

/-- Source `main`. `Args` is `os.Args`, `Get` the GET of the root page, `env`
the outcomes of the download steps and `schedule` the interleaving of the
coordinator loop. The result is `none` when the loop has not exited at the
end of `schedule` or the schedule is not an interleaving of this run. -/
def main (Args : List String) (Get : String → Option (List Token))
    (env : Nat → Steps) (schedule : List Nat) : Option Exit :=
  match Args with
  | _ :: url :: rest =>
    if url == "-h" then some { code := 1, summary := none }
    else
      let extenstions :=
        if rest.isEmpty then [".c", ".h", ".pdf"] else rest
      let files := crawl Get url extenstions
      if files.isNil then some { code := 1, summary := none }
      else
        match (dispatch url files.toList env).run files.len schedule with
        | some s =>
          if s.c < files.len then none
          else some { code := 0, summary := some s.total_downloaded }
        | none => none
  | _ => some { code := 1, summary := none }

/-- A world in which the GET of every page succeeds and yields `page`. -/
def serve (page : List Token) : String → Option (List Token) :=
  fun _ => some page

/-- A world in which every GET of a page fails. -/
def offline : String → Option (List Token) :=
  fun _ => none

/-- Every step of every download succeeds. -/
def allSucceed : Nat → Steps :=
  fun _ => { get := true, create := true, copy := true }

/-- The GET of every download fails. -/
def allFail : Nat → Steps :=
  fun _ => { get := false, create := true, copy := true }

/-- Two tasks, after the coordinator has received the outcome of the
first. -/
def oneOutcomeIn : Coordinator :=
  { c := 0,
    total_downloaded := 1,
    tasks := [[Signal.finished true], [Signal.outcome true, Signal.finished true]],
    received := [Signal.outcome true] }

/-- Two tasks, after the coordinator has received everything, the second
task having overtaken the first. -/
def bothDone : Coordinator :=
  { c := 2,
    total_downloaded := 2,
    tasks := [[], []],
    received := [Signal.outcome true, Signal.outcome true, Signal.finished true,
      Signal.finished true] }

/-! ## Facts about the Go values -/

theorem hasSuffix_iff (s e : String) :
    HasSuffix s e = true ↔ e.data <:+ s.data := by
  unfold HasSuffix
  simp only [Bool.and_eq_true, decide_eq_true_eq, beq_iff_eq, String.length]
  constructor
  · rintro ⟨_, h⟩
    rw [← h]
    exact List.drop_suffix _ _
  · intro h
    obtain ⟨p, hp⟩ := h
    have hl : s.data.length = p.length + e.data.length := by
      rw [← hp, List.length_append]
    refine ⟨by omega, ?_⟩
    rw [← hp, List.length_append, Nat.add_sub_cancel]
    simp

theorem Slice.toList_append {α : Type} (s : Slice α) (x : α) :
    (s.append x).toList = s.toList ++ [x] := rfl

/-! ## getHref -/

theorem foldl_href (l : List Attribute) (r : Bool × String) :
    l.foldl
        (fun (r : Bool × String) a => if a.Key = "href" then (true, a.Val) else r) r
      = match (l.filter (fun a => a.Key == "href")).getLast? with
        | some a => (true, a.Val)
        | none => r := by
  induction l generalizing r with
  | nil => rfl
  | cons a l ih =>
    rw [List.foldl_cons, ih]
    by_cases h : a.Key = "href"
    · simp only [h, if_true, List.filter_cons, beq_self_eq_true]
      cases hf : l.filter (fun a => a.Key == "href") with
      | nil => rfl
      | cons b fl => rfl
    · simp [h, List.filter_cons]

theorem getHref_eq_lastHref (t : Token) :
    getHref t = match lastHref t with
      | some h => (true, h)
      | none => (false, "") := by
  unfold getHref lastHref
  rw [foldl_href]
  cases (t.Attr.filter (fun a => a.Key == "href")).getLast? <;> rfl

theorem lastHref_of_split (t : Token) (pre post : List Attribute) (a : Attribute)
    (hsplit : t.Attr = pre ++ a :: post) (ha : a.Key = "href")
    (hpost : ∀ b ∈ post, b.Key ≠ "href") : lastHref t = some a.Val := by
  unfold lastHref
  have hp : post.filter (fun a => a.Key == "href") = [] := by
    rw [List.filter_eq_nil_iff]
    intro b hb
    simpa using hpost b hb
  rw [hsplit, List.filter_append, List.filter_cons, hp]
  simp [ha]

theorem lastHref_eq_none_iff (t : Token) :
    lastHref t = none ↔ ∀ a ∈ t.Attr, a.Key ≠ "href" := by
  unfold lastHref
  simp [List.getLast?_eq_none_iff, List.filter_eq_nil_iff]

/-! ## crawl -/

theorem appendMatches_toList (url : String) (E : List String)
    (files : Slice String) :
    (appendMatches url E files).toList
      = files.toList ++ (E.filter (fun e => HasSuffix url e)).map (fun _ => url) := by
  unfold appendMatches
  induction E generalizing files with
  | nil => simp
  | cons e E ih =>
    rw [List.foldl_cons, ih]
    by_cases h : HasSuffix url e = true
    · simp [h, Slice.toList_append]
    · simp [h]

theorem extractedLinks_nil (E : List String) : extractedLinks E [] = [] := rfl

theorem extractedLinks_cons_error (E : List String) (t : Token) (ts : List Token)
    (h : t.Typ = TokenType.ErrorToken) : extractedLinks E (t :: ts) = [] := by
  simp [extractedLinks, documentTokens, List.takeWhile_cons, h]

theorem extractedLinks_cons (E : List String) (t : Token) (ts : List Token)
    (h : t.Typ ≠ TokenType.ErrorToken) :
    extractedLinks E (t :: ts) = linksOfToken E t ++ extractedLinks E ts := by
  simp [extractedLinks, documentTokens, List.takeWhile_cons, h]

theorem crawlLoop_toList (E : List String) (ts : List Token) (files : Slice String) :
    (crawlLoop E ts files).toList = files.toList ++ extractedLinks E ts := by
  induction ts generalizing files with
  | nil => simp [crawlLoop, extractedLinks_nil]
  | cons t ts ih =>
    unfold crawlLoop
    cases hT : t.Typ with
    | ErrorToken => simp [extractedLinks_cons_error E t ts hT]
    | StartTagToken =>
      have hne : t.Typ ≠ TokenType.ErrorToken := by simp [hT]
      rw [extractedLinks_cons E t ts hne]
      by_cases hd : t.Data = "a"
      · simp only [hd, beq_self_eq_true, Bool.not_true, Bool.false_eq_true, if_false]
        rw [getHref_eq_lastHref]
        cases hl : lastHref t with
        | none => simp [ih, linksOfToken, hT, hd, hl]
        | some h =>
          simp [ih, linksOfToken, hT, hd, hl, appendMatches_toList, List.append_assoc]
      · simp [hd, ih, linksOfToken]
    | TextToken | EndTagToken | SelfClosingTagToken | CommentToken | DoctypeToken =>
      have hne : t.Typ ≠ TokenType.ErrorToken := by simp [hT]
      rw [extractedLinks_cons E t ts hne]
      simp [ih, linksOfToken, hT]

theorem crawl_toList (Get : String → Option (List Token)) (url : String)
    (E : List String) (ts : List Token) (h : Get url = some ts) :
    (crawl Get url E).toList = extractedLinks E ts := by
  unfold crawl
  rw [h]
  show (crawlLoop E ts Slice.nil).toList = extractedLinks E ts
  rw [crawlLoop_toList]
  rfl

theorem hasSuffix_of_mem_linksOfToken (E : List String) (t : Token) (f : String)
    (h : f ∈ linksOfToken E t) : ∃ e ∈ E, HasSuffix f e = true := by
  unfold linksOfToken at h
  split_ifs at h with hc
  · cases hl : lastHref t with
    | none => simp [hl] at h
    | some g =>
      simp only [hl, List.mem_map, List.mem_filter] at h
      obtain ⟨e, ⟨he, hs⟩, rfl⟩ := h
      exact ⟨e, he, hs⟩
  · simp at h

theorem appendMatches_eq (url : String) (E : List String) (files : Slice String) :
    appendMatches url E files
      = if (E.filter (fun e => HasSuffix url e)).map (fun _ => url) = [] then files
        else Slice.mk
          (files.toList ++ (E.filter (fun e => HasSuffix url e)).map (fun _ => url)) := by
  unfold appendMatches
  induction E generalizing files with
  | nil => simp
  | cons e E ih =>
    rw [List.foldl_cons, ih]
    by_cases h : HasSuffix url e = true
    · by_cases h2 : E.filter (fun e => HasSuffix url e) = []
      · simp [h, h2, Slice.append]
      · simp [h, h2, Slice.toList_append]
    · simp [h]

theorem crawlLoop_eq (E : List String) (ts : List Token) (files : Slice String) :
    crawlLoop E ts files
      = if extractedLinks E ts = [] then files
        else Slice.mk (files.toList ++ extractedLinks E ts) := by
  induction ts generalizing files with
  | nil => simp [crawlLoop, extractedLinks_nil]
  | cons t ts ih =>
    unfold crawlLoop
    cases hT : t.Typ with
    | ErrorToken => simp [extractedLinks_cons_error E t ts hT]
    | StartTagToken =>
      have hne : t.Typ ≠ TokenType.ErrorToken := by simp [hT]
      rw [extractedLinks_cons E t ts hne]
      by_cases hd : t.Data = "a"
      · simp only [hd, beq_self_eq_true, Bool.not_true, Bool.false_eq_true, if_false]
        rw [getHref_eq_lastHref]
        cases hl : lastHref t with
        | none => simp [ih, linksOfToken, hT, hd, hl]
        | some h =>
          have hL : linksOfToken E t
              = (E.filter (fun e => HasSuffix h e)).map (fun _ => h) := by
            simp [linksOfToken, hT, hd, hl]
          simp only [ih, appendMatches_eq, ← hL]
          by_cases h1 : linksOfToken E t = [] <;>
            by_cases h2 : extractedLinks E ts = [] <;>
            simp [h1, h2, Slice.toList, List.append_assoc]
      · simp [hd, ih, linksOfToken]
    | TextToken | EndTagToken | SelfClosingTagToken | CommentToken | DoctypeToken =>
      have hne : t.Typ ≠ TokenType.ErrorToken := by simp [hT]
      rw [extractedLinks_cons E t ts hne]
      simp [ih, linksOfToken, hT]

theorem crawl_isNil_iff (Get : String → Option (List Token)) (url : String)
    (E : List String) :
    (crawl Get url E).isNil = true
      ↔ Get url = none ∨ ∃ ts, Get url = some ts ∧ extractedLinks E ts = [] := by
  unfold crawl
  cases hg : Get url with
  | none => simp [Slice.isNil]
  | some ts =>
    simp only [crawlLoop_eq, Slice.toList, List.nil_append, false_or,
      Option.some.injEq, exists_eq_left', reduceCtorEq]
    by_cases h : extractedLinks E ts = [] <;> simp [h, Slice.isNil]

theorem count_linksOfToken (E : List String) (t : Token) (link : String) :
    (linksOfToken E t).count link
      = (if (decide (t.Typ = TokenType.StartTagToken ∧ t.Data = "a") &&
              (lastHref t == some link)) = true then 1 else 0)
          * (E.filter (fun e => HasSuffix link e)).length := by
  unfold linksOfToken
  by_cases hc : t.Typ = TokenType.StartTagToken ∧ t.Data = "a"
  · cases hl : lastHref t with
    | none => simp [hc]
    | some g =>
      by_cases hg : g = link
      · subst hg
        simp [hc, List.map_const', List.count_replicate]
      · simp [hc, hg, List.map_const', List.count_replicate]
  · simp [hc]

theorem anchorCount_cons_error (link : String) (t : Token) (ts : List Token)
    (h : t.Typ = TokenType.ErrorToken) : anchorCount link (t :: ts) = 0 := by
  simp [anchorCount, documentTokens, List.takeWhile_cons, h]

theorem anchorCount_cons (link : String) (t : Token) (ts : List Token)
    (h : t.Typ ≠ TokenType.ErrorToken) :
    anchorCount link (t :: ts)
      = (if (decide (t.Typ = TokenType.StartTagToken ∧ t.Data = "a") &&
              (lastHref t == some link)) = true then 1 else 0)
          + anchorCount link ts := by
  unfold anchorCount documentTokens
  have hb : (t.Typ != TokenType.ErrorToken) = true := by simpa using h
  rw [List.takeWhile_cons, if_pos hb, List.filter_cons]
  split_ifs <;> simp [Nat.add_comm]

theorem count_extractedLinks (E : List String) (ts : List Token) (link : String) :
    (extractedLinks E ts).count link
      = anchorCount link ts * (E.filter (fun e => HasSuffix link e)).length := by
  induction ts with
  | nil => simp [extractedLinks_nil, anchorCount, documentTokens]
  | cons t ts ih =>
    by_cases h : t.Typ = TokenType.ErrorToken
    · simp [extractedLinks_cons_error E t ts h, anchorCount_cons_error link t ts h]
    · rw [extractedLinks_cons E t ts h, anchorCount_cons link t ts h,
        List.count_append, ih, count_linksOfToken, Nat.add_mul]

/-! ## downloadFile and the coordinator loop -/

theorem sends_downloadFile (urlpath file : String) (w : Steps) :
    sends (downloadFile urlpath file w)
      = [Signal.outcome (w.get && w.create && w.copy), Signal.finished true] := by
  obtain ⟨g, c, k⟩ := w
  cases g <;> cases c <;> cases k <;> rfl

theorem pending_fresh (tasks : List (List Signal))
    (h : ∀ p ∈ tasks, ∃ b, p = [Signal.outcome b, Signal.finished true]) :
    pending Signal.isFinished tasks = tasks.length ∧
    pending Signal.isOutcome tasks = tasks.length := by
  induction tasks with
  | nil => exact ⟨rfl, rfl⟩
  | cons p ps ih =>
    obtain ⟨b, rfl⟩ := h _ (List.mem_cons_self _ _)
    obtain ⟨h1, h2⟩ := ih (fun q hq => h q (List.mem_cons_of_mem _ hq))
    unfold pending at h1 h2 ⊢
    simp only [List.map_cons, List.sum_cons, List.length_cons, h1, h2]
    constructor <;> simp [List.countP_cons, Signal.isFinished, Signal.isOutcome] <;> omega

theorem pending_set (q : Signal → Bool) (tasks : List (List Signal)) (i : Nat)
    (x : Signal) (rest : List Signal) (h : tasks[i]? = some (x :: rest)) :
    pending q (tasks.set i rest) + (if q x = true then 1 else 0)
      = pending q tasks := by
  induction tasks generalizing i with
  | nil => simp at h
  | cons p ps ih =>
    cases i with
    | zero =>
      simp only [List.getElem?_cons_zero, Option.some.injEq] at h
      subst h
      simp only [pending, List.set_cons_zero, List.map_cons, List.sum_cons,
        List.countP_cons]
      omega
    | succ j =>
      simp only [List.getElem?_cons_succ] at h
      have := ih j h
      simp only [pending, List.set_cons_succ, List.map_cons, List.sum_cons] at this ⊢
      omega

theorem remaining_set (tasks : List (List Signal)) (i : Nat)
    (x : Signal) (rest : List Signal) (h : tasks[i]? = some (x :: rest))
    (hs : ∀ p ∈ tasks, Remaining p) :
    Remaining rest ∧ ∀ p ∈ tasks.set i rest, Remaining p := by
  have hmem : (x :: rest) ∈ tasks := List.getElem?_mem h
  have hr : Remaining rest := by
    rcases hs _ hmem with h0 | h1 | ⟨b, h2⟩
    · exact absurd h0 (List.cons_ne_nil _ _)
    · rw [List.cons.injEq] at h1
      exact Or.inl h1.2
    · rw [List.cons.injEq] at h2
      exact Or.inr (Or.inl h2.2)
  refine ⟨hr, fun p hp => ?_⟩
  rcases List.mem_or_eq_of_mem_set hp with h1 | h1
  · exact hs p h1
  · rw [h1]; exact hr

theorem inv_dispatch (urlpath : String) (files : List String) (env : Nat → Steps) :
    Inv files.length (dispatch urlpath files env) := by
  have hfresh : ∀ p ∈ (dispatch urlpath files env).tasks,
      ∃ b, p = [Signal.outcome b, Signal.finished true] := by
    intro p hp
    simp only [dispatch, List.mem_map] at hp
    obtain ⟨q, _, rfl⟩ := hp
    exact ⟨_, sends_downloadFile _ _ _⟩
  have hlen : (dispatch urlpath files env).tasks.length = files.length := by
    simp [dispatch]
  obtain ⟨h1, h2⟩ := pending_fresh _ hfresh
  refine ⟨hlen, ?_, ?_, ?_, rfl, rfl⟩
  · rw [h1, hlen]; simp [dispatch]
  · rw [h2, hlen]; simp [dispatch]
  · intro p hp
    obtain ⟨b, hb⟩ := hfresh p hp
    exact Or.inr (Or.inr ⟨b, hb⟩)

theorem inv_recv (n : Nat) (s s' : Coordinator) (i : Nat) (hinv : Inv n s)
    (h : s.recv n i = some s') : Inv n s' := by
  unfold Coordinator.recv at h
  split_ifs at h with hc
  cases ht : s.tasks[i]? with
  | none => simp [ht] at h
  | some p =>
    cases p with
    | nil => simp [ht] at h
    | cons x rest =>
      have hF := pending_set Signal.isFinished s.tasks i x rest ht
      have hO := pending_set Signal.isOutcome s.tasks i x rest ht
      have hR := (remaining_set s.tasks i x rest ht hinv.shape).2
      obtain ⟨f0, f1, f2, _, f4, f5⟩ := hinv
      have hL : (s.tasks.set i rest).length = n := by rw [List.length_set]; exact f0
      cases x with
      | finished b =>
        simp only [ht, Option.some.injEq] at h
        subst h
        simp only [Signal.isFinished, Signal.isOutcome, if_true, Bool.false_eq_true,
          if_false] at hF hO
        refine ⟨hL, ?_, ?_, hR, ?_, ?_⟩
        · show s.c + 1 + pending Signal.isFinished (s.tasks.set i rest) = n
          omega
        · show s.total_downloaded + pending Signal.isOutcome (s.tasks.set i rest) = n
          omega
        · show (s.received ++ [Signal.finished b]).countP Signal.isFinished = s.c + 1
          rw [List.countP_append, f4]; rfl
        · show (s.received ++ [Signal.finished b]).countP Signal.isOutcome
              = s.total_downloaded
          rw [List.countP_append, f5]; rfl
      | outcome b =>
        simp only [ht, Option.some.injEq] at h
        subst h
        simp only [Signal.isFinished, Signal.isOutcome, if_true, Bool.false_eq_true,
          if_false] at hF hO
        refine ⟨hL, ?_, ?_, hR, ?_, ?_⟩
        · show s.c + pending Signal.isFinished (s.tasks.set i rest) = n
          omega
        · show s.total_downloaded + 1 + pending Signal.isOutcome (s.tasks.set i rest) = n
          omega
        · show (s.received ++ [Signal.outcome b]).countP Signal.isFinished = s.c
          rw [List.countP_append, f4]; rfl
        · show (s.received ++ [Signal.outcome b]).countP Signal.isOutcome
              = s.total_downloaded + 1
          rw [List.countP_append, f5]; rfl

theorem inv_run (n : Nat) (schedule : List Nat) (s s' : Coordinator)
    (hinv : Inv n s) (h : s.run n schedule = some s') : Inv n s' := by
  induction schedule generalizing s with
  | nil =>
    simp only [Coordinator.run, Option.some.injEq] at h
    exact h ▸ hinv
  | cons i schedule ih =>
    unfold Coordinator.run at h
    cases hr : s.recv n i with
    | none => simp [hr] at h
    | some s₁ =>
      simp only [hr] at h
      exact ih s₁ (inv_recv n s s₁ i hinv hr) h

theorem inv_reachable (urlpath : String) (files : List String) (env : Nat → Steps)
    (s : Coordinator) (h : Reachable urlpath files env s) : Inv files.length s := by
  obtain ⟨schedule, hs⟩ := h
  exact inv_run _ schedule _ s (inv_dispatch urlpath files env) hs

theorem pending_of_all_nil (q : Signal → Bool) (tasks : List (List Signal))
    (h : ∀ p ∈ tasks, p = []) : pending q tasks = 0 := by
  induction tasks with
  | nil => rfl
  | cons p ps ih =>
    have hp := h p (List.mem_cons_self _ _)
    subst hp
    have := ih (fun q hq => h q (List.mem_cons_of_mem _ hq))
    simp only [pending, List.map_cons, List.sum_cons, List.countP_nil] at this ⊢
    omega

theorem all_nil_of_no_pending_finished (tasks : List (List Signal))
    (hs : ∀ p ∈ tasks, Remaining p) (h : pending Signal.isFinished tasks = 0) :
    ∀ p ∈ tasks, p = [] := by
  induction tasks with
  | nil => intro p hp; simp at hp
  | cons t ts ih =>
    simp only [pending, List.map_cons, List.sum_cons] at h
    have h1 : t.countP Signal.isFinished = 0 := by omega
    have h2 : pending Signal.isFinished ts = 0 := by
      unfold pending; omega
    have ht : t = [] := by
      rcases hs t (List.mem_cons_self _ _) with h0 | h0 | ⟨b, h0⟩
      · exact h0
      · rw [h0] at h1; simp [List.countP_cons, Signal.isFinished] at h1
      · rw [h0] at h1; simp [List.countP_cons, Signal.isFinished] at h1
    intro p hp
    rcases List.mem_cons.mp hp with rfl | hp
    · exact ht
    · exact ih (fun q hq => hs q (List.mem_cons_of_mem _ hq)) h2 p hp

theorem inv_exited (n : Nat) (s : Coordinator) (hinv : Inv n s)
    (hexit : s.exited n) :
    s.c = n ∧ s.total_downloaded = n ∧ ∀ p ∈ s.tasks, p = [] := by
  unfold Coordinator.exited at hexit
  have hF := hinv.finished
  have hc : s.c = n := by omega
  have h0 : pending Signal.isFinished s.tasks = 0 := by omega
  have hall := all_nil_of_no_pending_finished s.tasks hinv.shape h0
  have hO := pending_of_all_nil Signal.isOutcome s.tasks hall
  have := hinv.outcomes
  exact ⟨hc, by omega, hall⟩

/-! ## The claims about link extraction -/

/-- C10: `getHref` reports `ok = true` exactly when some attribute has the key
`href`; the href is then the value of the last such attribute in list order,
and without such an attribute the result is `(false, "")`. -/
theorem getHref_last_wins (t : Token) :
    ((getHref t).1 = true ↔ ∃ a ∈ t.Attr, a.Key = "href") ∧
    (∀ (pre post : List Attribute) (a : Attribute),
        t.Attr = pre ++ a :: post → a.Key = "href" →
        (∀ b ∈ post, b.Key ≠ "href") → getHref t = (true, a.Val)) ∧
    ((∀ a ∈ t.Attr, a.Key ≠ "href") → getHref t = (false, "")) := by
  refine ⟨?_, ?_, ?_⟩
  · rw [getHref_eq_lastHref]
    cases hl : lastHref t with
    | none =>
      have hn := (lastHref_eq_none_iff t).mp hl
      simp only [Bool.false_eq_true, false_iff, not_exists, not_and]
      exact hn
    | some h =>
      simp only [true_iff]
      by_contra hcon
      have hn : lastHref t = none :=
        (lastHref_eq_none_iff t).mpr (fun a ha hk => hcon ⟨a, ha, hk⟩)
      rw [hl] at hn
      exact Option.noConfusion hn
  · intro pre post a hsplit ha hpost
    rw [getHref_eq_lastHref, lastHref_of_split t pre post a hsplit ha hpost]
  · intro hno
    rw [getHref_eq_lastHref, (lastHref_eq_none_iff t).mpr hno]

/-- C10, at a tag with two href attributes around another attribute: the
second href is the one returned. -/
theorem getHref_last_wins_witness :
    getHref { Typ := TokenType.StartTagToken, Data := "a",
              Attr := [{ Namespace := "", Key := "href", Val := "x.c" },
                       { Namespace := "", Key := "href", Val := "y.c" },
                       { Namespace := "", Key := "class", Val := "k" }] }
      = (true, "y.c") :=
  (getHref_last_wins _).2.1
    [{ Namespace := "", Key := "href", Val := "x.c" }]
    [{ Namespace := "", Key := "class", Val := "k" }]
    { Namespace := "", Key := "href", Val := "y.c" }
    rfl rfl (by decide)

/-- C1: every string `crawl` returns ends with at least one entry of the
extension filter, by the test `strings.HasSuffix`. -/
theorem crawl_no_false_positives (Get : String → Option (List Token))
    (url : String) (E : List String) (f : String)
    (hf : f ∈ (crawl Get url E).toList) :
    ∃ e ∈ E, HasSuffix f e = true ∧ e.data <:+ f.data := by
  cases hg : Get url with
  | none =>
    have hnil : crawl Get url E = Slice.nil := by simp [crawl, hg]
    rw [hnil] at hf
    simp [Slice.toList] at hf
  | some ts =>
    rw [crawl_toList Get url E ts hg] at hf
    simp only [extractedLinks, List.mem_flatMap] at hf
    obtain ⟨t, _, ht⟩ := hf
    obtain ⟨e, he, hs⟩ := hasSuffix_of_mem_linksOfToken E t f ht
    exact ⟨e, he, hs, (hasSuffix_iff f e).mp hs⟩

/-- C1, at the scenario page: `a.c` is returned and ends with an entry of the
default filter. -/
theorem crawl_no_false_positives_witness :
    "a.c" ∈ (crawl (serve scenarioPage) "http://host/" [".c", ".h", ".pdf"]).toList ∧
    ∃ e ∈ [".c", ".h", ".pdf"], HasSuffix "a.c" e = true ∧ e.data <:+ "a.c".data :=
  ⟨by decide,
   crawl_no_false_positives (serve scenarioPage) "http://host/"
     [".c", ".h", ".pdf"] "a.c" (by decide)⟩

/-- C2: on a page whose GET succeeds, `crawl` returns exactly the
concatenation, in document order up to the first error token, of what each
token contributes: a start tag named `a` with an href contributes one copy of
the href per filter entry (in filter order, duplicates counted) the href ends
with, every other token nothing. -/
theorem crawl_returns_extractedLinks (Get : String → Option (List Token))
    (url : String) (E : List String) (ts : List Token)
    (hget : Get url = some ts) :
    (crawl Get url E).toList = extractedLinks E ts :=
  crawl_toList Get url E ts hget

/-- C2, the scenario: anchors `a.c`, `b.pdf`, `c.txt` and the default filter
give `[a.c, b.pdf]`. -/
theorem crawl_returns_extractedLinks_witness :
    serve scenarioPage "http://host/" = some scenarioPage ∧
    (crawl (serve scenarioPage) "http://host/" [".c", ".h", ".pdf"]).toList
      = ["a.c", "b.pdf"] :=
  ⟨rfl,
   (crawl_returns_extractedLinks (serve scenarioPage) "http://host/"
      [".c", ".h", ".pdf"] scenarioPage rfl).trans (by decide)⟩

/-- C6 as stated fails: with the filter `[.c, .c]` the link `a.c` of a single
anchor ends with one distinct suffix of the filter, `.c`, and is returned
twice. -/
theorem crawl_distinct_suffix_count_counterexample :
    [".c"].Nodup ∧
    (∀ e ∈ [".c"], e ∈ [".c", ".c"] ∧ HasSuffix "a.c" e = true) ∧
    (∀ e ∈ [".c", ".c"], HasSuffix "a.c" e = true → e ∈ [".c"]) ∧
    [".c"].length = 1 ∧
    "a.c" ∈ (crawl (serve [anchor "a.c"]) "http://host/" [".c", ".c"]).toList ∧
    (crawl (serve [anchor "a.c"]) "http://host/" [".c", ".c"]).toList.count "a.c" = 2 := by
  decide

/-- C6, amended: a link is returned exactly `m * k` times, `m` the number of
anchor start tags (up to the first error token) whose href it is and `k` the
number of entries of the filter, duplicates counted, it ends with. -/
theorem crawl_count (Get : String → Option (List Token))
    (url : String) (E : List String) (ts : List Token) (link : String)
    (hget : Get url = some ts) :
    (crawl Get url E).toList.count link
      = anchorCount link ts * (E.filter (fun e => HasSuffix link e)).length := by
  rw [crawl_toList Get url E ts hget]
  exact count_extractedLinks E ts link

/-- C6 amended, at the counterexample's input: one anchor, two matching
filter entries, two copies. -/
theorem crawl_count_witness :
    serve [anchor "a.c"] "http://host/" = some [anchor "a.c"] ∧
    (crawl (serve [anchor "a.c"]) "http://host/" [".c", ".c"]).toList.count "a.c"
      = 1 * 2 :=
  ⟨rfl,
   (crawl_count (serve [anchor "a.c"]) "http://host/" [".c", ".c"]
      [anchor "a.c"] "a.c" rfl).trans (by decide)⟩

/-! ## main -/

theorem main_of_crawl (prog url : String) (rest : List String)
    (Get : String → Option (List Token)) (env : Nat → Steps)
    (schedule : List Nat) (x : Exit)
    (hurl : (url == "-h") = false)
    (hnil : (crawl Get url
      (if rest.isEmpty then [".c", ".h", ".pdf"] else rest)).isNil = false)
    (h : main (prog :: url :: rest) Get env schedule = some x) :
    x = { code := 0,
          summary := some (crawl Get url
            (if rest.isEmpty then [".c", ".h", ".pdf"] else rest)).len } := by
  unfold main at h
  simp only [hurl, hnil, Bool.false_eq_true, if_false] at h
  generalize crawl Get url (if rest.isEmpty then [".c", ".h", ".pdf"] else rest)
    = files at h ⊢
  cases hr : (dispatch url files.toList env).run files.len schedule with
  | none => simp [hr] at h
  | some s =>
    simp only [hr] at h
    split_ifs at h with hc
    have hex := inv_exited files.toList.length s
      (inv_run _ schedule _ s (inv_dispatch url files.toList env) hr) hc
    simp only [Option.some.injEq] at h
    rw [← h, hex.2.1]
    rfl

theorem main_exit_one_iff (prog url : String) (rest : List String)
    (Get : String → Option (List Token)) (env : Nat → Steps)
    (schedule : List Nat) (hurl : (url == "-h") = false) :
    main (prog :: url :: rest) Get env schedule = some { code := 1, summary := none }
      ↔ (crawl Get url
          (if rest.isEmpty then [".c", ".h", ".pdf"] else rest)).isNil = true := by
  constructor
  · intro h
    by_contra hn
    have hnil : (crawl Get url
        (if rest.isEmpty then [".c", ".h", ".pdf"] else rest)).isNil = false := by
      simpa using hn
    have hx := main_of_crawl prog url rest Get env schedule _ hurl hnil h
    have hcode := congrArg Exit.code hx
    simp at hcode
  · intro h
    unfold main
    simp only [hurl, h, Bool.false_eq_true, if_false, if_true]

/-! ## The claims about downloads and the coordinator -/

/-- C9: whatever the outcomes of the three steps, a task sends one value on
the outcome channel, `true` exactly when the GET, the file creation and the
copy all succeeded, then one `true` on the finished channel, and nothing
else; it starts with the GET of `urlpath + file`, creates the file only after
a successful GET and copies only after a successful creation. -/
theorem downloadFile_signals (urlpath file : String) (w : Steps) :
    sends (downloadFile urlpath file w)
      = [Signal.outcome (w.get && w.create && w.copy), Signal.finished true] ∧
    ((w.get && w.create && w.copy) = true
      ↔ w.get = true ∧ w.create = true ∧ w.copy = true) ∧
    (downloadFile urlpath file w).head? = some (Event.httpGet (urlpath ++ file)) ∧
    (Event.osCreate file ∈ downloadFile urlpath file w ↔ w.get = true) ∧
    (Event.ioCopy ∈ downloadFile urlpath file w
      ↔ w.get = true ∧ w.create = true) := by
  obtain ⟨g, c, k⟩ := w
  cases g <;> cases c <;> cases k <;> simp [downloadFile, sends]

/-- C7: in every state the coordinator and its tasks can reach, under every
interleaving, `total_downloaded` is at most the number of dispatched links. -/
theorem tally_le_dispatched (urlpath : String) (files : List String)
    (env : Nat → Steps) (s : Coordinator)
    (h : Reachable urlpath files env s) :
    s.total_downloaded ≤ files.length := by
  have := (inv_reachable urlpath files env s h).outcomes
  omega

/-- C7, at a state of two tasks in which one outcome has been received. -/
theorem tally_le_dispatched_witness :
    Reachable "http://host/" ["a.c", "b.pdf"] allSucceed oneOutcomeIn ∧
    oneOutcomeIn.total_downloaded ≤ ["a.c", "b.pdf"].length :=
  ⟨⟨[0], by decide⟩,
   tally_le_dispatched "http://host/" ["a.c", "b.pdf"] allSucceed oneOutcomeIn
     ⟨[0], by decide⟩⟩

/-- C8: when the wait loop exits it has received exactly `len(files)`
finished signals and exactly `len(files)` outcome signals, its two counters
both equal `len(files)`, and none of the `len(files)` tasks has a send
pending. -/
theorem loop_exit_all_received (urlpath : String) (files : List String)
    (env : Nat → Steps) (s : Coordinator)
    (h : Reachable urlpath files env s) (hexit : s.exited files.length) :
    s.received.countP Signal.isFinished = files.length ∧
    s.received.countP Signal.isOutcome = files.length ∧
    s.c = files.length ∧
    s.total_downloaded = files.length ∧
    s.tasks.length = files.length ∧
    ∀ p ∈ s.tasks, p = [] := by
  have hinv := inv_reachable urlpath files env s h
  obtain ⟨hc, ht, hall⟩ := inv_exited files.length s hinv hexit
  refine ⟨?_, ?_, hc, ht, hinv.size, hall⟩
  · rw [hinv.recvFinished, hc]
  · rw [hinv.recvOutcome, ht]

/-- C8, at the exit of a run of two tasks in which the second overtakes the
first. -/
theorem loop_exit_all_received_witness :
    Reachable "http://host/" ["a.c", "b.pdf"] allSucceed bothDone ∧
    bothDone.exited 2 ∧
    bothDone.received.countP Signal.isFinished = 2 ∧
    bothDone.received.countP Signal.isOutcome = 2 ∧
    bothDone.c = 2 ∧
    bothDone.total_downloaded = 2 ∧
    bothDone.tasks.length = 2 ∧
    ∀ p ∈ bothDone.tasks, p = [] :=
  ⟨⟨[0, 1, 1, 0], by decide⟩, by decide,
   loop_exit_all_received "http://host/" ["a.c", "b.pdf"] allSucceed bothDone
     ⟨[0, 1, 1, 0], by decide⟩ (by decide)⟩

/-- C5, the code at a failing input: the only link is `a.c` and its GET
fails, so the task sends `false` and no task reports success, yet the loop
counts the value received and `main` prints a tally of 1, under the complete
interleaving and under every other one that lets the loop exit. -/
theorem tally_counts_failed_download :
    sends (downloadFile "http://host/" "a.c" (allFail 0))
      = [Signal.outcome false, Signal.finished true] ∧
    successes ["a.c"] allFail = 0 ∧
    main ["grabfiles", "http://host/"] (serve [anchor "a.c"]) allFail [0, 0]
      = some { code := 0, summary := some 1 } ∧
    ∀ schedule,
      main ["grabfiles", "http://host/"] (serve [anchor "a.c"]) allFail schedule = none ∨
      main ["grabfiles", "http://host/"] (serve [anchor "a.c"]) allFail schedule
        = some { code := 0, summary := some 1 } := by
  refine ⟨by decide, by decide, by decide, fun schedule => ?_⟩
  cases h : main ["grabfiles", "http://host/"] (serve [anchor "a.c"]) allFail schedule with
  | none => exact Or.inl rfl
  | some x =>
    right
    have := main_of_crawl "grabfiles" "http://host/" [] (serve [anchor "a.c"])
      allFail schedule x (by decide) (by decide) h
    rw [this]
    decide

/-- C3, the code at a failing input: the page is fetched and its only anchor,
`c.txt`, matches no entry of the default filter; `crawl` returns the nil
slice, the very value it returns when the GET fails. In general the result of
`crawl` is the nil slice, which `main` takes for a failed extraction, exactly
when the GET fails or the fetched document yields no link. -/
theorem crawl_no_match_is_failure_value :
    (serve [anchor "c.txt"] "http://host/" = some [anchor "c.txt"] ∧
     extractedLinks [".c", ".h", ".pdf"] [anchor "c.txt"] = [] ∧
     (crawl (serve [anchor "c.txt"]) "http://host/" [".c", ".h", ".pdf"]).len = 0 ∧
     (crawl (serve [anchor "c.txt"]) "http://host/" [".c", ".h", ".pdf"]).isNil = true ∧
     crawl (serve [anchor "c.txt"]) "http://host/" [".c", ".h", ".pdf"]
       = crawl offline "http://host/" [".c", ".h", ".pdf"]) ∧
    ∀ (Get : String → Option (List Token)) (url : String) (E : List String),
      (crawl Get url E).isNil = true
        ↔ Get url = none ∨ ∃ ts, Get url = some ts ∧ extractedLinks E ts = [] :=
  ⟨by decide, crawl_isNil_iff⟩

/-- C4, the code at a failing input: a well-formed invocation whose root page
is fetched but holds no matching link ends with exit code 1, whatever the
downloads and the interleaving would be, exactly as when the GET fails. In
general a run with a URL argument other than `-h` ends with exit code 1
exactly when `crawl` returns the nil slice. -/
theorem main_no_match_exits_one :
    serve [anchor "c.txt"] "http://host/" = some [anchor "c.txt"] ∧
    (∀ (env : Nat → Steps) (schedule : List Nat),
      main ["grabfiles", "http://host/"] (serve [anchor "c.txt"]) env schedule
        = some { code := 1, summary := none }) ∧
    (∀ (env : Nat → Steps) (schedule : List Nat),
      main ["grabfiles", "http://host/"] offline env schedule
        = some { code := 1, summary := none }) ∧
    ∀ (prog url : String) (rest : List String) (Get : String → Option (List Token))
      (env : Nat → Steps) (schedule : List Nat), (url == "-h") = false →
      (main (prog :: url :: rest) Get env schedule = some { code := 1, summary := none }
        ↔ (crawl Get url
            (if rest.isEmpty then [".c", ".h", ".pdf"] else rest)).isNil = true) :=
  ⟨rfl, fun _ _ => rfl, fun _ _ => rfl, main_exit_one_iff⟩

end Grabfiles
